import Mathlib

/-!
Verification of the gene-set-collection (GSC) extraction routine of the
GEM_tutorial repository (scripts/GEM_GSC_extraction.ipynb).

The notebook loads a metabolic model and derives two gene set collections,
one keyed by reaction subsystem and one keyed by metabolite (with two
compartment policies), filters out empty associations, removes apostrophes
from metabolite names, and writes each collection to a tab-delimited .gmt
file.

Strings are embedded as lists of characters (Python str values). The order
in which CPython materialises a set into a list is modelled by an explicit
enumeration function that permutes its argument; an extraction run
corresponds to one choice of such a function. The Python expression
set.union(*xs) raises a TypeError when xs is empty, so the union is
embedded as an Option-valued function.
-/

abbrev Str := List Char

/-- Tab character, the field delimiter of the .gmt format. -/
def tabC : Char := Char.ofNat 9

/-- Newline character, the record terminator of the .gmt format. -/
def nlC : Char := Char.ofNat 10

/-- Apostrophe character, removed from metabolite names by the notebook. -/
def aposC : Char := Char.ofNat 39

/-- The literal description placeholder written as the second .gmt field. -/
def naField : Str := ['n', 'a']

/-- Lexicographic comparison of strings, the order used by numpy when
sorting an array of strings. -/
def strLe : Str → Str → Bool
  | [], _ => true
  | _ :: _, [] => false
  | a :: as, b :: bs => if a < b then true else if a = b then strLe as bs else false

/-- Model of numpy.unique applied to a list of strings: the distinct values
in sorted order. -/
def npUnique (l : List Str) : List Str :=
  l.dedup.insertionSort (fun a b => strLe a b = true)

/-- Python substring test: isSubstrOf pat s holds exactly when pat occurs
contiguously inside s, which is what the Python expression pat in s computes
on two strings. -/
def isSubstrOf (pat s : Str) : Bool :=
  (List.range (s.length + 1)).any (fun i => pat.isPrefixOf (s.drop i))

/-- Python x.replace of the apostrophe by the empty string: every apostrophe
character is removed. -/
def stripApos (s : Str) : Str :=
  s.filter (fun c => !(c == aposC))

/-- Python str.split with a one-character separator: the maximal runs of
characters between occurrences of c, including empty runs. -/
def splitOnC (c : Char) : Str → List Str
  | [] => [[]]
  | x :: xs =>
    match splitOnC c xs with
    | [] => [[]]
    | f :: rest => if x = c then [] :: f :: rest else (x :: f) :: rest

/-- Python str.join with a one-character separator. -/
def intercalateSep (c : Char) : List Str → Str
  | [] => []
  | [f] => f
  | f :: g :: fs => f ++ c :: intercalateSep c (g :: fs)

/-- A reaction of the model: a stable id, a subsystem label, the ids of its
associated genes, and the ids of the metabolites taking part in it. -/
structure Reaction where
  id : Str
  subsystem : Str
  genes : List Str
  mets : List Str
deriving DecidableEq

/-- A metabolite of the model: a stable id, a display name, and a
compartment tag. -/
structure Metabolite where
  id : Str
  name : Str
  compartment : Str
deriving DecidableEq

/-- A loaded metabolic model: reactions, metabolites and gene ids, with the
reaction-gene and reaction-metabolite cross references stored on the
reactions. -/
structure Model where
  reactions : List Reaction
  metabolites : List Metabolite
  genes : List Str
deriving DecidableEq

/-- An enumeration function materialises a set (represented by a list of its
distinct elements) into a list; CPython guarantees only that the result
enumerates each element once, i.e. is a permutation. A run of the notebook
corresponds to one such function. -/
def ValidEnum (e : {α : Type} → List α → List α) : Prop :=
  ∀ (α : Type) (l : List α), List.Perm (e l) l

/-- The identity enumeration: first-occurrence order. -/
def listId : {α : Type} → List α → List α := fun l => l

/-- The reversing enumeration: another possible set iteration order. -/
def listRev : {α : Type} → List α → List α := fun l => l.reverse

/-- Python expression list(set.union(*xs)) on a list xs of sets: a TypeError
is raised when xs is empty (set.union is then called with no set at all),
otherwise the elements of the union are returned in the enumeration order of
the run. The union of the underlying lists is their deduplicated
concatenation. -/
def pySetUnionE (e : {α : Type} → List α → List α) {α : Type} [DecidableEq α]
    (xs : List (List α)) : Option (List α) :=
  match xs with
  | [] => none
  | _ :: _ => some (e xs.flatten.dedup)

/-- Sequential loop accumulating the value of f on each element and stopping
with an error as soon as one call fails. -/
def optMapM {α β : Type} (f : α → Option β) : List α → Option (List β)
  | [] => some []
  | x :: xs =>
    match f x, optMapM f xs with
    | some y, some ys => some (y :: ys)
    | _, _ => none

/-- Notebook cell: subsystems = np.unique of the subsystem of every
reaction. -/
def subsystemNames (model : Model) : List Str :=
  npUnique (model.reactions.map (fun r => r.subsystem))

/-- Notebook loop: for each subsystem s, the ids of the union of set(x.genes)
over the reactions x selected by the Python test s in x.subsystem, which is a
substring test, not an equality test. -/
def subsystemAssoc (e : {α : Type} → List α → List α) (model : Model) :
    Option (List (List Str)) :=
  optMapM
    (fun s =>
      pySetUnionE e
        ((model.reactions.filter (fun r => isSubstrOf s r.subsystem)).map
          (fun r => r.genes)))
    (subsystemNames model)

/-- Notebook cell keeping the names at the indices whose gene association is
nonempty: the comprehension over enumerate(names) testing the length of the
association at that index. -/
def filterNames (names : List Str) (assoc : List (List Str)) : List Str :=
  (names.enum.filter (fun p => decide (0 < (assoc.getD p.1 []).length))).map
    (fun p => p.2)

/-- Notebook cell keeping the nonempty gene associations. -/
def filterAssoc (assoc : List (List Str)) : List (List Str) :=
  assoc.filter (fun gs => decide (0 < gs.length))

/-- The subsystem pipeline up to and including the empty-association filter:
the parallel lists (subsystems, gene_assoc) that reach the serializer. No
further transformation is applied to subsystem names before writing. -/
def subsystemOut (e : {α : Type} → List α → List α) (model : Model) :
    Option (List Str × List (List Str)) :=
  match subsystemAssoc e model with
  | none => none
  | some assoc => some (filterNames (subsystemNames model) assoc, filterAssoc assoc)

/-- One output line, as built inside the merged_list comprehension: the
tab-join of the group name, the na placeholder and the gene ids, followed by
a newline. -/
def gmtLineOf (name : Str) (genes : List Str) : Str :=
  intercalateSep tabC (name :: naField :: genes) ++ [nlC]

/-- Notebook cell building merged_list: one line for each index i below the
length of the names list, pairing names and gene associations by index. -/
def mergedList (names : List Str) (assoc : List (List Str)) : List Str :=
  (List.range names.length).map (fun i => gmtLineOf (names.getD i []) (assoc.getD i []))

/-- The file content produced by f.writelines(merged_list). -/
def gmtOf (names : List Str) (assoc : List (List Str)) : Str :=
  (mergedList names assoc).flatten

/-- The content of the subsystem .gmt file for one run. -/
def subsystemFile (e : {α : Type} → List α → List α) (model : Model) : Option Str :=
  (subsystemOut e model).map (fun out => gmtOf out.1 out.2)

/-- Notebook cell of the compartment-aware metabolite mode: the display key
name plus compartment in square brackets. -/
def metKey (m : Metabolite) : Str :=
  m.name ++ '[' :: (m.compartment ++ [']'])

/-- The names list of the compartment-aware metabolite mode. -/
def metNamesComp (model : Model) : List Str :=
  model.metabolites.map metKey

/-- The reactions of the model containing the metabolite m, i.e. the cobra
attribute m.reactions. -/
def metReactions (model : Model) (m : Metabolite) : List Reaction :=
  model.reactions.filter (fun r => decide (m.id ∈ r.mets))

/-- Notebook loop of the compartment-aware metabolite mode: for each
metabolite m of the model, the ids of the union of set(r.genes) over
list(m.reactions). The set m.reactions is materialised by the enumeration of
the run before the gene sets are collected. -/
def metaboliteAssocComp (e : {α : Type} → List α → List α) (model : Model) :
    Option (List (List Str)) :=
  optMapM
    (fun m => pySetUnionE e ((e (metReactions model m)).map (fun r => r.genes)))
    model.metabolites

/-- The compartment-aware metabolite pipeline after the empty-association
filter and the apostrophe removal: the parallel lists that reach the
serializer. Only the names are sanitized, and only in the metabolite
pipelines. -/
def metaboliteOutComp (e : {α : Type} → List α → List α) (model : Model) :
    Option (List Str × List (List Str)) :=
  match metaboliteAssocComp e model with
  | none => none
  | some assoc =>
      some ((filterNames (metNamesComp model) assoc).map stripApos, filterAssoc assoc)

/-- The content of the metabolite .gmt file, compartment-aware mode. -/
def metaboliteFileComp (e : {α : Type} → List α → List α) (model : Model) : Option Str :=
  (metaboliteOutComp e model).map (fun out => gmtOf out.1 out.2)

/-- Notebook cell of the compartment-merged metabolite mode: np.unique of the
metabolite names, compartments ignored. -/
def metNamesMerged (model : Model) : List Str :=
  npUnique (model.metabolites.map (fun m => m.name))

/-- Notebook loop of the compartment-merged metabolite mode: for each
distinct metabolite name, first the union of set(m.reactions) over the
metabolites m carrying that name, then the ids of the union of set(r.genes)
over the reactions r of that merged set. -/
def metaboliteAssocMerged (e : {α : Type} → List α → List α) (model : Model) :
    Option (List (List Str)) :=
  optMapM
    (fun nm =>
      (pySetUnionE e
          ((model.metabolites.filter (fun m => m.name == nm)).map
            (fun m => metReactions model m))).bind
        (fun rs => pySetUnionE e (rs.map (fun r => r.genes))))
    (metNamesMerged model)

/-- The compartment-merged metabolite pipeline after the empty-association
filter and the apostrophe removal. -/
def metaboliteOutMerged (e : {α : Type} → List α → List α) (model : Model) :
    Option (List Str × List (List Str)) :=
  match metaboliteAssocMerged e model with
  | none => none
  | some assoc =>
      some ((filterNames (metNamesMerged model) assoc).map stripApos, filterAssoc assoc)

/-- The content of the metabolite .gmt file, compartment-merged mode. -/
def metaboliteFileMerged (e : {α : Type} → List α → List α) (model : Model) : Option Str :=
  (metaboliteOutMerged e model).map (fun out => gmtOf out.1 out.2)

/-- Parser applied by downstream consumers of the .gmt format, as described
by the round-trip property: split the file into newline-terminated records,
split each record on the tab delimiter, take field 1 as the group name and
fields 3 onward as the gene set. -/
def parseGmt (file : Str) : List (Str × List Str) :=
  ((splitOnC nlC file).dropLast).map
    (fun line => ((splitOnC tabC line).headD [], (splitOnC tabC line).drop 2))

/-- The gene pool of a subsystem group s: the deduplicated concatenation of
the gene lists of the reactions whose subsystem contains s as a substring.
The entry the notebook stores for s is an enumeration of this pool. -/
def subGenePool (model : Model) (s : Str) : List Str :=
  (((model.reactions.filter (fun r => isSubstrOf s r.subsystem)).map
      (fun r => r.genes)).flatten).dedup

/-- The gene pool the compartment-aware metabolite mode computes for the
metabolite m of a run with enumeration e. -/
def compGenePool (e : {α : Type} → List α → List α) (model : Model)
    (m : Metabolite) : List Str :=
  (((e (metReactions model m)).map (fun r => r.genes)).flatten).dedup

/-- The merged reaction pool of a metabolite name nm: the union of the
reaction sets of all metabolites carrying that name. -/
def mergedReacPool (model : Model) (nm : Str) : List Reaction :=
  (((model.metabolites.filter (fun m => m.name == nm)).map
      (fun m => metReactions model m)).flatten).dedup

/-- The gene pool the compartment-merged metabolite mode computes for the
metabolite name nm of a run with enumeration e. -/
def mergedGenePool (e : {α : Type} → List α → List α) (model : Model)
    (nm : Str) : List Str :=
  (((e (mergedReacPool model nm)).map (fun r => r.genes)).flatten).dedup

/-- Example model of the specification scenario: two glycolysis reactions
with overlapping gene sets. -/
def mGly : Model :=
  { reactions :=
      [ { id := "R1".toList, subsystem := "Glycolysis".toList,
          genes := ["G1".toList, "G2".toList], mets := [] },
        { id := "R2".toList, subsystem := "Glycolysis".toList,
          genes := ["G2".toList, "G3".toList], mets := [] } ],
    metabolites := [], genes := ["G1".toList, "G2".toList, "G3".toList] }

/-- Example model with one subsystem label that is a proper substring of
another. -/
def exM1 : Model :=
  { reactions :=
      [ { id := "R1".toList, subsystem := "A".toList, genes := ["G1".toList],
          mets := [] },
        { id := "R2".toList, subsystem := "AB".toList, genes := ["G2".toList],
          mets := [] } ],
    metabolites := [], genes := ["G1".toList, "G2".toList] }

/-- Example model with an apostrophe inside a subsystem label. -/
def exM2 : Model :=
  { reactions :=
      [ { id := "R1".toList, subsystem := ['5', aposC], genes := ["G1".toList],
          mets := [] } ],
    metabolites := [], genes := ["G1".toList] }

/-- Example model with one subsystem and two genes, used to compare two
enumeration orders. -/
def exM3 : Model :=
  { reactions :=
      [ { id := "R1".toList, subsystem := "S".toList,
          genes := ["G1".toList, "G2".toList], mets := [] } ],
    metabolites := [], genes := ["G1".toList, "G2".toList] }

/-- Example model with an empty subsystem label on a reaction that has a
gene. -/
def exM6 : Model :=
  { reactions :=
      [ { id := "R1".toList, subsystem := [], genes := ["G1".toList],
          mets := [] } ],
    metabolites := [], genes := ["G1".toList] }

/-- Example model with a metabolite that no reaction contains. -/
def exM7 : Model :=
  { reactions :=
      [ { id := "R1".toList, subsystem := "S".toList, genes := ["G1".toList],
          mets := [] } ],
    metabolites :=
      [ { id := "m1".toList, name := "orphan".toList, compartment := "c".toList } ],
    genes := ["G1".toList] }

/-- Example model of the specification scenario for the compartment-merged
mode: water in two compartments, touched by different reactions. -/
def exWater : Model :=
  { reactions :=
      [ { id := "R1".toList, subsystem := "S".toList, genes := ["G1".toList],
          mets := ["m1".toList] },
        { id := "R2".toList, subsystem := "S".toList, genes := ["G2".toList],
          mets := ["m2".toList] } ],
    metabolites :=
      [ { id := "m1".toList, name := "water".toList, compartment := "c".toList },
        { id := "m2".toList, name := "water".toList, compartment := "m".toList } ],
    genes := ["G1".toList, "G2".toList] }

/-! Basic facts about the embedded Python primitives. -/

theorem isPrefixOf_self (l : Str) : l.isPrefixOf l = true := by
  induction l with
  | nil => rfl
  | cons x xs ih => simp [List.isPrefixOf, ih]

theorem isSubstrOf_self (s : Str) : isSubstrOf s s = true := by
  unfold isSubstrOf
  refine List.any_eq_true.mpr ⟨0, ?_, ?_⟩
  · exact List.mem_range.mpr (Nat.succ_pos _)
  · simp [isPrefixOf_self]

theorem validEnum_listId : ValidEnum listId :=
  fun _ l => List.Perm.refl l

theorem validEnum_listRev : ValidEnum listRev :=
  fun _ l => List.reverse_perm l

theorem enum_mem {e : {α : Type} → List α → List α} (he : ValidEnum e)
    {α : Type} (l : List α) (a : α) : a ∈ e l ↔ a ∈ l :=
  (he α l).mem_iff

theorem enum_length {e : {α : Type} → List α → List α} (he : ValidEnum e)
    {α : Type} (l : List α) : (e l).length = l.length :=
  (he α l).length_eq

theorem enum_eq_nil_iff {e : {α : Type} → List α → List α} (he : ValidEnum e)
    {α : Type} (l : List α) : e l = [] ↔ l = [] := by
  rw [← List.length_eq_zero, ← List.length_eq_zero, enum_length he]

theorem pySetUnionE_eq_none_iff {e : {α : Type} → List α → List α} {α : Type}
    [DecidableEq α] (xs : List (List α)) : pySetUnionE e xs = none ↔ xs = [] := by
  cases xs <;> simp [pySetUnionE]

theorem pySetUnionE_eq_some_iff {e : {α : Type} → List α → List α} {α : Type}
    [DecidableEq α] (xs : List (List α)) (us : List α) :
    pySetUnionE e xs = some us ↔ xs ≠ [] ∧ us = e xs.flatten.dedup := by
  cases xs <;> simp [pySetUnionE, eq_comm]

theorem pySetUnionE_of_ne_nil {e : {α : Type} → List α → List α} {α : Type}
    [DecidableEq α] {xs : List (List α)} (h : xs ≠ []) :
    pySetUnionE e xs = some (e xs.flatten.dedup) :=
  (pySetUnionE_eq_some_iff xs _).mpr ⟨h, rfl⟩

theorem pySetUnionE_mem {e : {α : Type} → List α → List α} (he : ValidEnum e)
    {α : Type} [DecidableEq α] {xs : List (List α)} {us : List α}
    (h : pySetUnionE e xs = some us) (a : α) : a ∈ us ↔ ∃ l ∈ xs, a ∈ l := by
  obtain ⟨-, rfl⟩ := (pySetUnionE_eq_some_iff xs us).mp h
  rw [enum_mem he, List.mem_dedup, List.mem_flatten]

theorem optMapM_eq_some_of {α β : Type} {f : α → Option β} {g : α → β} :
    ∀ {l : List α}, (∀ x ∈ l, f x = some (g x)) → optMapM f l = some (l.map g) := by
  intro l
  induction l with
  | nil => intro _; rfl
  | cons x xs ih =>
      intro h
      have hx : f x = some (g x) := h x (List.mem_cons_self x xs)
      have hxs : optMapM f xs = some (xs.map g) :=
        ih (fun y hy => h y (List.mem_cons_of_mem x hy))
      simp [optMapM, hx, hxs]

theorem optMapM_forall2 {α β : Type} {f : α → Option β} :
    ∀ {l : List α} {as : List β}, optMapM f l = some as →
      List.Forall₂ (fun x y => f x = some y) l as := by
  intro l
  induction l with
  | nil =>
      intro as h
      simp only [optMapM, Option.some.injEq] at h
      subst h
      exact List.Forall₂.nil
  | cons x xs ih =>
      intro as h
      simp only [optMapM] at h
      cases hfx : f x with
      | none => rw [hfx] at h; exact absurd h (by simp)
      | some y =>
          rw [hfx] at h
          cases hrec : optMapM f xs with
          | none => rw [hrec] at h; exact absurd h (by simp)
          | some ys =>
              rw [hrec] at h
              simp only [Option.some.injEq] at h
              subst h
              exact List.Forall₂.cons hfx (ih hrec)

theorem optMapM_eq_none_of {α β : Type} {f : α → Option β} {x : α} :
    ∀ {l : List α}, x ∈ l → f x = none → optMapM f l = none := by
  intro l
  induction l with
  | nil => intro hx; exact absurd hx (List.not_mem_nil x)
  | cons y ys ih =>
      intro hx hfx
      rcases List.mem_cons.mp hx with h | h
      · subst h; simp [optMapM, hfx]
      · cases hfy : f y with
        | none => simp [optMapM, hfy]
        | some v => simp [optMapM, hfy, ih h hfx]

theorem optMapM_exists_of {α β : Type} {f : α → Option β} :
    ∀ {l : List α}, (∀ x ∈ l, f x ≠ none) → ∃ as, optMapM f l = some as := by
  intro l
  induction l with
  | nil => intro _; exact ⟨[], rfl⟩
  | cons x xs ih =>
      intro h
      obtain ⟨y, hy⟩ := Option.ne_none_iff_exists'.mp (h x (List.mem_cons_self x xs))
      obtain ⟨as, has⟩ := ih (fun z hz => h z (List.mem_cons_of_mem x hz))
      exact ⟨y :: as, by simp [optMapM, hy, has]⟩

theorem forall2_fun_eq_map {α β : Type} {g : α → β} :
    ∀ {l : List α} {as : List β},
      List.Forall₂ (fun x y => y = g x) l as → as = l.map g := by
  intro l
  induction l with
  | nil => intro as h; cases h; rfl
  | cons x xs ih =>
      intro as h
      cases h with
      | cons h1 h2 => simp [h1, ih h2]

/-! Correspondence between the index-based parallel filters of the notebook
and the filtered zip of the two lists. -/

theorem mem_npUnique (l : List Str) (s : Str) : s ∈ npUnique l ↔ s ∈ l := by
  unfold npUnique
  rw [(List.perm_insertionSort _ _).mem_iff, List.mem_dedup]

theorem npUnique_nodup (l : List Str) : (npUnique l).Nodup := by
  unfold npUnique
  rw [(List.perm_insertionSort _ _).nodup_iff]
  exact List.nodup_dedup l

theorem subsystemNames_spec (model : Model) (s : Str) :
    s ∈ subsystemNames model ↔ ∃ r ∈ model.reactions, r.subsystem = s := by
  unfold subsystemNames
  rw [mem_npUnique]
  simp [List.mem_map]

theorem metNamesMerged_spec (model : Model) (nm : Str) :
    nm ∈ metNamesMerged model ↔ ∃ m ∈ model.metabolites, m.name = nm := by
  unfold metNamesMerged
  rw [mem_npUnique]
  simp [List.mem_map]

theorem filterNames_aux (A : List (List Str)) :
    ∀ (ns : List Str) (k : Nat), k + ns.length ≤ A.length →
      ((List.enumFrom k ns).filter
            (fun p => decide (0 < (A.getD p.1 []).length))).map (fun p => p.2)
        = ((ns.zip (A.drop k)).filter
            (fun p => decide (0 < p.2.length))).map (fun p => p.1) := by
  intro ns
  induction ns with
  | nil => intro k h; simp
  | cons n ns ih =>
      intro k h
      have h' : k + (ns.length + 1) ≤ A.length := by simpa [List.length_cons] using h
      have hk : k < A.length := by omega
      have hgetD : A.getD k [] = A[k] := List.getD_eq_getElem A [] hk
      rw [show List.enumFrom k (n :: ns) = (k, n) :: List.enumFrom (k + 1) ns from rfl,
        List.drop_eq_getElem_cons hk, List.zip_cons_cons, List.filter_cons,
        List.filter_cons]
      simp only [hgetD]
      by_cases hc : 0 < (A[k]).length
      · simp [hc]
        simpa using ih (k + 1) (by omega)
      · simp [hc]
        simpa using ih (k + 1) (by omega)

theorem filterNames_eq {ns : List Str} {A : List (List Str)} (h : ns.length = A.length) :
    filterNames ns A
      = ((ns.zip A).filter (fun p => decide (0 < p.2.length))).map (fun p => p.1) := by
  have := filterNames_aux A ns 0 (by omega)
  simpa [filterNames, List.enum] using this

theorem filterAssoc_eq :
    ∀ {ns : List Str} {A : List (List Str)}, ns.length = A.length →
      filterAssoc A
        = ((ns.zip A).filter (fun p => decide (0 < p.2.length))).map (fun p => p.2) := by
  intro ns
  induction ns with
  | nil =>
      intro A h
      have : A = [] := List.length_eq_zero.mp h.symm
      subst this
      rfl
  | cons n ns ih =>
      intro A h
      cases A with
      | nil => simp at h
      | cons a as =>
          have h' : ns.length = as.length := by simpa using h
          rw [List.zip_cons_cons, List.filter_cons]
          by_cases hc : 0 < a.length
          · simp [filterAssoc, List.filter_cons, hc, ← ih h', filterAssoc]
          · simp [filterAssoc, List.filter_cons, hc, ← ih h', filterAssoc]

theorem zip_map_fst_snd_pairs {α β : Type} :
    ∀ (l : List (α × β)), (l.map Prod.fst).zip (l.map Prod.snd) = l := by
  intro l
  induction l with
  | nil => rfl
  | cons x xs ih => simp [ih]

theorem zip_filter_eq {ns : List Str} {A : List (List Str)} (h : ns.length = A.length) :
    (filterNames ns A).zip (filterAssoc A)
      = (ns.zip A).filter (fun p => decide (0 < p.2.length)) := by
  rw [filterNames_eq h, filterAssoc_eq h]
  exact zip_map_fst_snd_pairs _

/-! Closed forms of the three extraction pipelines. -/

theorem zip_self_map {α β : Type} (g : α → β) :
    ∀ (l : List α), l.zip (l.map g) = l.map (fun a => (a, g a)) := by
  intro l
  induction l with
  | nil => rfl
  | cons x xs ih => simp [ih]

theorem subGenePool_mem (model : Model) (s : Str) (g : Str) :
    g ∈ subGenePool model s
      ↔ ∃ r ∈ model.reactions, isSubstrOf s r.subsystem = true ∧ g ∈ r.genes := by
  unfold subGenePool
  simp only [List.mem_dedup, List.mem_flatten, List.mem_map, List.mem_filter]
  constructor
  · rintro ⟨l, ⟨r, ⟨hr, hsub⟩, rfl⟩, hg⟩
    exact ⟨r, hr, hsub, hg⟩
  · rintro ⟨r, hr, hsub, hg⟩
    exact ⟨r.genes, ⟨r, ⟨hr, hsub⟩, rfl⟩, hg⟩

theorem subsystemAssoc_eq (e : {α : Type} → List α → List α) (model : Model) :
    subsystemAssoc e model
      = some ((subsystemNames model).map (fun s => e (subGenePool model s))) := by
  unfold subsystemAssoc
  apply optMapM_eq_some_of
  intro s hs
  obtain ⟨r, hr, hrs⟩ := (subsystemNames_spec model s).mp hs
  have hmem : r ∈ model.reactions.filter (fun x => isSubstrOf s x.subsystem) :=
    List.mem_filter.mpr ⟨hr, by rw [hrs]; exact isSubstrOf_self s⟩
  have hne :
      (model.reactions.filter (fun x => isSubstrOf s x.subsystem)).map
          (fun x => x.genes) ≠ [] := by
    intro hcontra
    rw [List.map_eq_nil_iff] at hcontra
    rw [hcontra] at hmem
    exact List.not_mem_nil r hmem
  rw [pySetUnionE_of_ne_nil hne]
  rfl

theorem subsystemOut_pairs {e : {α : Type} → List α → List α} {model : Model}
    {out : List Str × List (List Str)} (h : subsystemOut e model = some out) :
    out.1.zip out.2
      = ((subsystemNames model).map (fun s => (s, e (subGenePool model s)))).filter
          (fun p => decide (0 < p.2.length)) := by
  unfold subsystemOut at h
  rw [subsystemAssoc_eq] at h
  simp only [Option.some.injEq] at h
  rw [← h]
  rw [zip_filter_eq (by simp)]
  rw [zip_self_map]

theorem compGenePool_mem {e : {α : Type} → List α → List α} (he : ValidEnum e)
    (model : Model) (m : Metabolite) (g : Str) :
    g ∈ compGenePool e model m
      ↔ ∃ r ∈ model.reactions, m.id ∈ r.mets ∧ g ∈ r.genes := by
  unfold compGenePool metReactions
  simp only [List.mem_dedup, List.mem_flatten, List.mem_map, enum_mem he,
    List.mem_filter, decide_eq_true_iff]
  constructor
  · rintro ⟨l, ⟨r, ⟨hr, hmet⟩, rfl⟩, hg⟩
    exact ⟨r, hr, hmet, hg⟩
  · rintro ⟨r, hr, hmet, hg⟩
    exact ⟨r.genes, ⟨r, ⟨hr, hmet⟩, rfl⟩, hg⟩

theorem metaboliteAssocComp_forall2 {e : {α : Type} → List α → List α}
    {model : Model} {assoc : List (List Str)}
    (h : metaboliteAssocComp e model = some assoc) :
    List.Forall₂ (fun m a => a = e (compGenePool e model m)) model.metabolites assoc := by
  refine (optMapM_forall2 h).imp ?_
  intro m a hma
  obtain ⟨-, rfl⟩ := (pySetUnionE_eq_some_iff _ _).mp hma
  rfl

theorem metaboliteOutComp_pairs {e : {α : Type} → List α → List α} {model : Model}
    {out : List Str × List (List Str)} (h : metaboliteOutComp e model = some out) :
    out.1.zip out.2
      = ((model.metabolites.map
            (fun m => (stripApos (metKey m), e (compGenePool e model m)))).filter
          (fun p => decide (0 < p.2.length))) := by
  unfold metaboliteOutComp at h
  cases hassoc : metaboliteAssocComp e model with
  | none => rw [hassoc] at h; exact absurd h (by simp)
  | some assoc =>
      rw [hassoc] at h
      simp only [Option.some.injEq] at h
      have hmap := forall2_fun_eq_map (metaboliteAssocComp_forall2 hassoc)
      rw [← h, hmap, List.zip_map_left,
        zip_filter_eq (by simp [metNamesComp]),
        show metNamesComp model = model.metabolites.map metKey from rfl,
        List.zip_map', List.filter_map, List.filter_map, List.map_map]
      rfl

theorem mergedGenePool_mem {e : {α : Type} → List α → List α} (he : ValidEnum e)
    (model : Model) (nm : Str) (g : Str) :
    g ∈ mergedGenePool e model nm
      ↔ ∃ m ∈ model.metabolites, m.name = nm
          ∧ ∃ r ∈ model.reactions, m.id ∈ r.mets ∧ g ∈ r.genes := by
  unfold mergedGenePool mergedReacPool metReactions
  simp only [List.mem_dedup, List.mem_flatten, List.mem_map, enum_mem he,
    List.mem_filter, decide_eq_true_iff, beq_iff_eq]
  constructor
  · rintro ⟨l, ⟨r, ⟨rl, ⟨m, ⟨hm, hnm⟩, rfl⟩, hrin⟩, rfl⟩, hg⟩
    obtain ⟨hrr, hdec⟩ := List.mem_filter.mp hrin
    exact ⟨m, hm, hnm, r, hrr, by simpa using hdec, hg⟩
  · rintro ⟨m, hm, hnm, r, hrr, hmet, hg⟩
    exact ⟨r.genes, ⟨r, ⟨model.reactions.filter (fun x => decide (m.id ∈ x.mets)),
      ⟨m, ⟨hm, hnm⟩, rfl⟩, List.mem_filter.mpr ⟨hrr, by simpa using hmet⟩⟩, rfl⟩, hg⟩

theorem metaboliteAssocMerged_forall2 {e : {α : Type} → List α → List α}
    {model : Model} {assoc : List (List Str)}
    (h : metaboliteAssocMerged e model = some assoc) :
    List.Forall₂ (fun nm a => a = e (mergedGenePool e model nm))
      (metNamesMerged model) assoc := by
  refine (optMapM_forall2 h).imp ?_
  intro nm a hma
  rw [Option.bind_eq_some] at hma
  obtain ⟨rs, hrs, hgenes⟩ := hma
  obtain ⟨-, rfl⟩ := (pySetUnionE_eq_some_iff _ _).mp hrs
  obtain ⟨-, rfl⟩ := (pySetUnionE_eq_some_iff _ _).mp hgenes
  rfl

theorem metaboliteOutMerged_pairs {e : {α : Type} → List α → List α} {model : Model}
    {out : List Str × List (List Str)} (h : metaboliteOutMerged e model = some out) :
    out.1.zip out.2
      = (((metNamesMerged model).map
            (fun nm => (stripApos nm, e (mergedGenePool e model nm)))).filter
          (fun p => decide (0 < p.2.length))) := by
  unfold metaboliteOutMerged at h
  cases hassoc : metaboliteAssocMerged e model with
  | none => rw [hassoc] at h; exact absurd h (by simp)
  | some assoc =>
      rw [hassoc] at h
      simp only [Option.some.injEq] at h
      have hmap := forall2_fun_eq_map (metaboliteAssocMerged_forall2 hassoc)
      rw [← h, hmap, List.zip_map_left, zip_filter_eq (by simp), zip_self_map,
        List.filter_map, List.filter_map, List.map_map]
      rfl

/-! Facts about the tab-delimited serialization and its inverse. -/

theorem splitOnC_ne_nil (c : Char) : ∀ (s : Str), splitOnC c s ≠ [] := by
  intro s
  induction s with
  | nil => simp [splitOnC]
  | cons x xs ih =>
      simp only [splitOnC]
      cases h : splitOnC c xs with
      | nil => simp
      | cons f rest => by_cases hx : x = c <;> simp [hx]

theorem splitOnC_not_mem {c : Char} : ∀ {f : Str}, c ∉ f → splitOnC c f = [f] := by
  intro f
  induction f with
  | nil => intro _; rfl
  | cons x xs ih =>
      intro h
      have hx : x ≠ c := fun hc => h (hc ▸ List.mem_cons_self x xs)
      have hxs : c ∉ xs := fun hc => h (List.mem_cons_of_mem x hc)
      simp only [splitOnC, ih hxs]
      simp [hx]

theorem splitOnC_append_cons {c : Char} : ∀ {f : Str}, c ∉ f → ∀ (s : Str),
    splitOnC c (f ++ c :: s) = f :: splitOnC c s := by
  intro f
  induction f with
  | nil =>
      intro _ s
      simp only [List.nil_append, splitOnC]
      cases h : splitOnC c s with
      | nil => exact absurd h (splitOnC_ne_nil c s)
      | cons f2 rest => simp
  | cons x xs ih =>
      intro h s
      have hx : x ≠ c := fun hc => h (hc ▸ List.mem_cons_self x xs)
      have hxs : c ∉ xs := fun hc => h (List.mem_cons_of_mem x hc)
      simp only [List.cons_append, splitOnC, List.append_eq]
      rw [ih hxs s]
      simp [hx]

theorem splitOnC_intercalateSep {c : Char} : ∀ (fs : List Str) (f0 : Str),
    (∀ f ∈ f0 :: fs, c ∉ f) →
    splitOnC c (intercalateSep c (f0 :: fs)) = f0 :: fs := by
  intro fs
  induction fs with
  | nil => intro f0 h; exact splitOnC_not_mem (h f0 (by simp))
  | cons f1 fs ih =>
      intro f0 h
      rw [show intercalateSep c (f0 :: f1 :: fs) = f0 ++ c :: intercalateSep c (f1 :: fs)
        from rfl]
      rw [splitOnC_append_cons (h f0 (by simp))]
      rw [ih f1 (fun f hf => h f (List.mem_cons_of_mem f0 hf))]

theorem not_mem_intercalateSep {x c : Char} (hxc : x ≠ c) :
    ∀ {fs : List Str}, (∀ f ∈ fs, x ∉ f) → x ∉ intercalateSep c fs := by
  intro fs
  induction fs with
  | nil => intro _; simp [intercalateSep]
  | cons f0 fs ih =>
      intro h
      cases fs with
      | nil => simpa [intercalateSep] using h f0 (by simp)
      | cons f1 fs2 =>
          rw [show intercalateSep c (f0 :: f1 :: fs2)
              = f0 ++ c :: intercalateSep c (f1 :: fs2) from rfl]
          intro hmem
          rcases List.mem_append.mp hmem with h1 | h2
          · exact h f0 (by simp) h1
          · rcases List.mem_cons.mp h2 with h3 | h4
            · exact hxc h3
            · exact ih (fun f hf => h f (List.mem_cons_of_mem f0 hf)) h4

theorem splitOnC_writelines {c : Char} : ∀ {recs : List Str}, (∀ r ∈ recs, c ∉ r) →
    splitOnC c ((recs.map (fun r => r ++ [c])).flatten) = recs ++ [[]] := by
  intro recs
  induction recs with
  | nil => intro _; rfl
  | cons r rs ih =>
      intro h
      rw [List.map_cons, List.flatten_cons]
      rw [show (r ++ [c]) ++ (rs.map (fun x => x ++ [c])).flatten
          = r ++ c :: (rs.map (fun x => x ++ [c])).flatten by simp]
      rw [splitOnC_append_cons (h r (by simp)),
        ih (fun f hf => h f (List.mem_cons_of_mem r hf))]
      rfl

theorem mergedList_eq_zip : ∀ {ns : List Str} {A : List (List Str)},
    ns.length = A.length →
    mergedList ns A = (ns.zip A).map (fun p => gmtLineOf p.1 p.2) := by
  intro ns
  induction ns with
  | nil => intro A h; rfl
  | cons n ns ih =>
      intro A h
      cases A with
      | nil => simp at h
      | cons a as =>
          have h' : ns.length = as.length := by simpa using h
          have htail := ih h'
          simp only [mergedList] at htail
          simp only [mergedList, List.length_cons, List.range_succ_eq_map, List.map_cons,
            List.map_map, List.getD_cons_zero, List.zip_cons_cons]
          refine congrArg (List.cons _) ?_
          rw [← htail]
          apply List.map_congr_left
          intro i hi
          simp [Function.comp, List.getD_cons_succ]

theorem parseGmt_gmtOf {ns : List Str} {A : List (List Str)} (hlen : ns.length = A.length)
    (hname : ∀ n ∈ ns, tabC ∉ n ∧ nlC ∉ n)
    (hgene : ∀ gs ∈ A, ∀ g ∈ gs, tabC ∉ g ∧ nlC ∉ g) :
    parseGmt (gmtOf ns A) = ns.zip A := by
  unfold parseGmt gmtOf
  rw [mergedList_eq_zip hlen]
  have hmapform : (ns.zip A).map (fun p => gmtLineOf p.1 p.2)
      = ((ns.zip A).map (fun p => intercalateSep tabC (p.1 :: naField :: p.2))).map
          (fun r => r ++ [nlC]) := by
    rw [List.map_map]
    rfl
  rw [hmapform]
  have hrecs : ∀ r ∈ (ns.zip A).map (fun p => intercalateSep tabC (p.1 :: naField :: p.2)),
      nlC ∉ r := by
    intro r hr
    obtain ⟨p, hp, rfl⟩ := List.mem_map.mp hr
    have hp1 := List.of_mem_zip hp
    apply not_mem_intercalateSep (by decide)
    intro f hf
    rcases List.mem_cons.mp hf with rfl | hf2
    · exact (hname p.1 hp1.1).2
    · rcases List.mem_cons.mp hf2 with rfl | hf3
      · decide
      · exact (hgene p.2 hp1.2 f hf3).2
  rw [splitOnC_writelines hrecs, List.dropLast_concat, List.map_map]
  conv_rhs => rw [← List.map_id (ns.zip A)]
  apply List.map_congr_left
  intro p hp
  have hp1 := List.of_mem_zip hp
  have hfields : ∀ f ∈ p.1 :: naField :: p.2, tabC ∉ f := by
    intro f hf
    rcases List.mem_cons.mp hf with rfl | hf2
    · exact (hname p.1 hp1.1).1
    · rcases List.mem_cons.mp hf2 with rfl | hf3
      · decide
      · exact (hgene p.2 hp1.2 f hf3).1
  simp only [Function.comp]
  rw [splitOnC_intercalateSep (naField :: p.2) p.1 hfields]
  simp

/-! Determinism up to permutation: the filtered outputs of two runs. -/

theorem forall2_map_map {α β : Type} {R : β → β → Prop} {f g : α → β} :
    ∀ {l : List α}, (∀ x ∈ l, R (f x) (g x)) → List.Forall₂ R (l.map f) (l.map g) := by
  intro l
  induction l with
  | nil => intro _; exact List.Forall₂.nil
  | cons x xs ih =>
      intro h
      exact List.Forall₂.cons (h x (by simp))
        (ih (fun z hz => h z (List.mem_cons_of_mem x hz)))

theorem forall2_getD_length {A B : List (List Str)}
    (h : List.Forall₂ (fun a b => a.length = b.length) A B) :
    ∀ (i : Nat), (A.getD i []).length = (B.getD i []).length := by
  induction h with
  | nil => intro i; rfl
  | @cons a b as bs h1 h2 ih =>
      intro i
      cases i with
      | zero => simpa using h1
      | succ j => simpa [List.getD_cons_succ] using ih j

theorem filterNames_congr {ns : List Str} {A B : List (List Str)}
    (h : List.Forall₂ (fun a b : List Str => a.length = b.length) A B) :
    filterNames ns A = filterNames ns B := by
  unfold filterNames
  congr 1
  apply List.filter_congr
  intro p hp
  rw [forall2_getD_length h p.1]

theorem forall2_perm_filterAssoc {A B : List (List Str)}
    (h : List.Forall₂ List.Perm A B) :
    List.Forall₂ List.Perm (filterAssoc A) (filterAssoc B) := by
  induction h with
  | nil => exact List.Forall₂.nil
  | @cons a b as bs h1 h2 ih =>
      unfold filterAssoc
      rw [List.filter_cons, List.filter_cons]
      have hlen := h1.length_eq
      by_cases hc : 0 < a.length
      · have hc2 : 0 < b.length := hlen ▸ hc
        rw [if_pos (by simpa using hc), if_pos (by simpa using hc2)]
        exact List.Forall₂.cons h1 ih
      · have hc2 : ¬0 < b.length := hlen ▸ hc
        rw [if_neg (by simpa using hc), if_neg (by simpa using hc2)]
        exact ih

theorem optMapM_rel {α β : Type} {f1 f2 : α → Option β} {R : β → β → Prop} :
    ∀ {l : List α} {as bs : List β},
      optMapM f1 l = some as → optMapM f2 l = some bs →
      (∀ x ∈ l, ∀ a b, f1 x = some a → f2 x = some b → R a b) →
      List.Forall₂ R as bs := by
  intro l
  induction l with
  | nil =>
      intro as bs h1 h2 _
      simp only [optMapM, Option.some.injEq] at h1 h2
      subst h1
      subst h2
      exact List.Forall₂.nil
  | cons x xs ih =>
      intro as bs h1 h2 hp
      simp only [optMapM] at h1 h2
      cases ha : f1 x with
      | none => rw [ha] at h1; simp at h1
      | some a =>
          rw [ha] at h1
          cases hra : optMapM f1 xs with
          | none => rw [hra] at h1; simp at h1
          | some as2 =>
              rw [hra] at h1
              simp only [Option.some.injEq] at h1
              subst h1
              cases hb : f2 x with
              | none => rw [hb] at h2; simp at h2
              | some b =>
                  rw [hb] at h2
                  cases hrb : optMapM f2 xs with
                  | none => rw [hrb] at h2; simp at h2
                  | some bs2 =>
                      rw [hrb] at h2
                      simp only [Option.some.injEq] at h2
                      subst h2
                      exact List.Forall₂.cons (hp x (by simp) a b ha hb)
                        (ih hra hrb (fun z hz => hp z (List.mem_cons_of_mem x hz)))

theorem aposC_not_mem_stripApos (s : Str) : aposC ∉ stripApos s := by
  intro h
  have := (List.mem_filter.mp h).2
  simp at this

/-! Verdicts on the specified properties. -/

/-- C10: the empty-set filter preserves the positional correspondence between
the parallel lists of group names and gene lists: when the lists have equal
length, zipping the two filtered lists equals filtering the zipped pairs by
nonemptiness of the gene list, so the i-th retained name is still paired with
the i-th retained gene list. -/
theorem C10_theorem (ns : List Str) (A : List (List Str)) (h : ns.length = A.length) :
    (filterNames ns A).zip (filterAssoc A)
      = (ns.zip A).filter (fun p => decide (0 < p.2.length)) :=
  zip_filter_eq h

theorem C10_witness :
    ([['A'], ['B']] : List Str).length = ([[], [['G']]] : List (List Str)).length
      ∧ (filterNames [['A'], ['B']] [[], [['G']]]).zip (filterAssoc [[], [['G']]])
          = (([['A'], ['B']] : List Str).zip [[], [['G']]]).filter
              (fun p => decide (0 < p.2.length)) :=
  ⟨by decide, C10_theorem [['A'], ['B']] [[], [['G']]] (by decide)⟩

/-- C1 as stated is false: the subsystem loop selects reactions with the
Python substring test, so with subsystem labels A and AB the written group A
also receives the gene of the AB reaction, although the union of the genes
of the reactions whose subsystem equals A is only G1. -/
theorem C1_counterexample :
    subsystemOut listId exM1
        = some ([['A'], ['A', 'B']], [[['G', '1'], ['G', '2']], [['G', '2']]])
      ∧ ((exM1.reactions.filter (fun r => r.subsystem == ['A'])).map
            (fun r => r.genes)).flatten = [['G', '1']] := by
  decide

/-- C1 (amended): for every group of the written subsystem collection the
gene set is exactly the union of the gene sets of the reactions whose
subsystem CONTAINS the group key as a substring; for every entry of the
compartment-aware metabolite collection there is a metabolite of the model
whose apostrophe-stripped key is the entry name and whose touching reactions
yield exactly the entry gene set. -/
theorem C1_theorem {e : {α : Type} → List α → List α} (he : ValidEnum e)
    (model : Model) :
    (∀ out, subsystemOut e model = some out →
      ∀ p ∈ out.1.zip out.2, ∀ g,
        g ∈ p.2 ↔ ∃ r ∈ model.reactions, isSubstrOf p.1 r.subsystem = true ∧ g ∈ r.genes) ∧
    (∀ out, metaboliteOutComp e model = some out →
      ∀ p ∈ out.1.zip out.2, ∃ m ∈ model.metabolites,
        p.1 = stripApos (metKey m)
          ∧ ∀ g, (g ∈ p.2 ↔ ∃ r ∈ model.reactions, m.id ∈ r.mets ∧ g ∈ r.genes)) := by
  constructor
  · intro out hout p hp g
    rw [subsystemOut_pairs hout] at hp
    obtain ⟨hp1, hp2⟩ := List.mem_filter.mp hp
    obtain ⟨s, hs, rfl⟩ := List.mem_map.mp hp1
    dsimp only
    rw [enum_mem he, subGenePool_mem]
  · intro out hout p hp
    rw [metaboliteOutComp_pairs hout] at hp
    obtain ⟨hp1, hp2⟩ := List.mem_filter.mp hp
    obtain ⟨m, hm, rfl⟩ := List.mem_map.mp hp1
    refine ⟨m, hm, rfl, ?_⟩
    intro g
    dsimp only
    rw [enum_mem he, compGenePool_mem he]

theorem C1_witness :
    subsystemOut listId exM1
        = some ([['A'], ['A', 'B']], [[['G', '1'], ['G', '2']], [['G', '2']]])
      ∧ (['G', '2'] ∈ [['G', '1'], ['G', '2']]
          ↔ ∃ r ∈ exM1.reactions,
              isSubstrOf ['A'] r.subsystem = true ∧ ['G', '2'] ∈ r.genes) :=
  ⟨by decide,
    (C1_theorem validEnum_listId exM1).1
      ([['A'], ['A', 'B']], [[['G', '1'], ['G', '2']], [['G', '2']]]) (by decide)
      (['A'], [['G', '1'], ['G', '2']]) (by decide) ['G', '2']⟩

/-- C2 as stated is false: the subsystem pipeline performs no apostrophe
removal at all, so a subsystem label containing an apostrophe is written to
the .gmt file with the apostrophe intact. -/
theorem C2_counterexample :
    subsystemFile listId exM2
        = some ['5', aposC, tabC, 'n', 'a', tabC, 'G', '1', nlC]
      ∧ aposC ∈ ['5', aposC, tabC, 'n', 'a', tabC, 'G', '1', nlC] := by
  decide

/-- C2 (amended): only the metabolite pipelines remove apostrophes, and
there they remove them from every written group name, in both compartment
modes. -/
theorem C2_theorem (e : {α : Type} → List α → List α) (model : Model) :
    (∀ out, metaboliteOutComp e model = some out → ∀ n ∈ out.1, aposC ∉ n) ∧
    (∀ out, metaboliteOutMerged e model = some out → ∀ n ∈ out.1, aposC ∉ n) := by
  constructor
  · intro out hout n hn
    unfold metaboliteOutComp at hout
    cases hassoc : metaboliteAssocComp e model with
    | none => rw [hassoc] at hout; exact absurd hout (by simp)
    | some assoc =>
        rw [hassoc] at hout
        simp only [Option.some.injEq] at hout
        rw [← hout] at hn
        obtain ⟨x, hx, rfl⟩ := List.mem_map.mp hn
        exact aposC_not_mem_stripApos x
  · intro out hout n hn
    unfold metaboliteOutMerged at hout
    cases hassoc : metaboliteAssocMerged e model with
    | none => rw [hassoc] at hout; exact absurd hout (by simp)
    | some assoc =>
        rw [hassoc] at hout
        simp only [Option.some.injEq] at hout
        rw [← hout] at hn
        obtain ⟨x, hx, rfl⟩ := List.mem_map.mp hn
        exact aposC_not_mem_stripApos x

theorem C2_witness :
    metaboliteOutComp listId exWater
        = some ([['w', 'a', 't', 'e', 'r', '[', 'c', ']'],
                 ['w', 'a', 't', 'e', 'r', '[', 'm', ']']],
                [[['G', '1']], [['G', '2']]])
      ∧ aposC ∉ (['w', 'a', 't', 'e', 'r', '[', 'c', ']'] : Str) :=
  ⟨by decide,
    (C2_theorem listId exWater).1
      ([['w', 'a', 't', 'e', 'r', '[', 'c', ']'], ['w', 'a', 't', 'e', 'r', '[', 'm', ']']],
        [[['G', '1']], [['G', '2']]]) (by decide)
      ['w', 'a', 't', 'e', 'r', '[', 'c', ']'] (by decide)⟩

/-- C3 as stated is false: the gene order inside a line is the iteration
order of a Python set, which is not fixed; two runs whose set enumerations
differ (here first-occurrence order versus reversed order, both legitimate
enumerations of the same sets) write the genes of the same group in
different orders. -/
theorem C3_counterexample :
    ValidEnum listId ∧ ValidEnum listRev
      ∧ subsystemOut listId exM3 ≠ subsystemOut listRev exM3 :=
  ⟨validEnum_listId, validEnum_listRev, by decide⟩

/-- C3 (amended): the extraction is deterministic only up to the order of
genes inside a line: for any two runs (set enumerations) of the subsystem or
the compartment-merged metabolite pipeline, the group names agree exactly
and the gene lists of corresponding lines are permutations of each other. -/
theorem C3_theorem {e1 e2 : {α : Type} → List α → List α}
    (he1 : ValidEnum e1) (he2 : ValidEnum e2) (model : Model) :
    (∀ o1 o2, subsystemOut e1 model = some o1 → subsystemOut e2 model = some o2 →
      o1.1 = o2.1 ∧ List.Forall₂ List.Perm o1.2 o2.2) ∧
    (∀ o1 o2, metaboliteOutMerged e1 model = some o1 →
      metaboliteOutMerged e2 model = some o2 →
      o1.1 = o2.1 ∧ List.Forall₂ List.Perm o1.2 o2.2) := by
  constructor
  · intro o1 o2 h1 h2
    unfold subsystemOut at h1 h2
    rw [subsystemAssoc_eq] at h1 h2
    simp only [Option.some.injEq] at h1 h2
    subst h1
    subst h2
    have hperm : ∀ s ∈ subsystemNames model,
        List.Perm (e1 (subGenePool model s)) (e2 (subGenePool model s)) :=
      fun s _ => (he1 _ _).trans (he2 _ _).symm
    constructor
    · exact filterNames_congr (forall2_map_map (fun s hs => (hperm s hs).length_eq))
    · exact forall2_perm_filterAssoc (forall2_map_map hperm)
  · intro o1 o2 h1 h2
    unfold metaboliteOutMerged at h1 h2
    cases ha1 : metaboliteAssocMerged e1 model with
    | none => rw [ha1] at h1; exact absurd h1 (by simp)
    | some A1 =>
        cases ha2 : metaboliteAssocMerged e2 model with
        | none => rw [ha2] at h2; exact absurd h2 (by simp)
        | some A2 =>
            rw [ha1] at h1
            rw [ha2] at h2
            simp only [Option.some.injEq] at h1 h2
            subst h1
            subst h2
            have hA1 := forall2_fun_eq_map (metaboliteAssocMerged_forall2 ha1)
            have hA2 := forall2_fun_eq_map (metaboliteAssocMerged_forall2 ha2)
            subst hA1
            subst hA2
            have hpool : ∀ nm,
                List.Perm (mergedGenePool e1 model nm) (mergedGenePool e2 model nm) := by
              intro nm
              unfold mergedGenePool
              have hrp : List.Perm (e1 (mergedReacPool model nm)) (e2 (mergedReacPool model nm)) :=
                (he1 Reaction (mergedReacPool model nm)).trans
                  (he2 Reaction (mergedReacPool model nm)).symm
              exact ((hrp.map (fun r => r.genes)).flatten).dedup
            have hperm : ∀ nm ∈ metNamesMerged model,
                List.Perm (e1 (mergedGenePool e1 model nm))
                  (e2 (mergedGenePool e2 model nm)) :=
              fun nm _ => (he1 _ _).trans ((hpool nm).trans (he2 _ _).symm)
            constructor
            · rw [filterNames_congr (forall2_map_map (fun nm h => (hperm nm h).length_eq))]
            · exact forall2_perm_filterAssoc (forall2_map_map hperm)

theorem C3_witness :
    subsystemOut listId exM3 = some ([['S']], [[['G', '1'], ['G', '2']]])
      ∧ ([['S']] : List Str) = [['S']]
      ∧ List.Forall₂ List.Perm [[['G', '1'], ['G', '2']]] [[['G', '1'], ['G', '2']]] := by
  refine ⟨by decide, ?_⟩
  exact (C3_theorem validEnum_listId validEnum_listId exM3).1
    ([['S']], [[['G', '1'], ['G', '2']]]) ([['S']], [[['G', '1'], ['G', '2']]])
    (by decide) (by decide)

/-- C4: every group of every written collection has a nonempty gene set, and
when the model satisfies the cobra invariant that every gene referenced by a
reaction is registered in the model gene list, every written gene id is a
gene of the model. -/
theorem C4_theorem {e : {α : Type} → List α → List α} (he : ValidEnum e)
    (model : Model)
    (hwf : ∀ r ∈ model.reactions, ∀ g ∈ r.genes, g ∈ model.genes) :
    (∀ out, subsystemOut e model = some out →
      ∀ p ∈ out.1.zip out.2, p.2 ≠ [] ∧ ∀ g ∈ p.2, g ∈ model.genes) ∧
    (∀ out, metaboliteOutComp e model = some out →
      ∀ p ∈ out.1.zip out.2, p.2 ≠ [] ∧ ∀ g ∈ p.2, g ∈ model.genes) ∧
    (∀ out, metaboliteOutMerged e model = some out →
      ∀ p ∈ out.1.zip out.2, p.2 ≠ [] ∧ ∀ g ∈ p.2, g ∈ model.genes) := by
  refine ⟨?_, ?_, ?_⟩
  · intro out hout p hp
    rw [subsystemOut_pairs hout] at hp
    obtain ⟨hp1, hp2⟩ := List.mem_filter.mp hp
    constructor
    · exact List.length_pos.mp (by simpa using hp2)
    · intro g hg
      obtain ⟨s, hs, rfl⟩ := List.mem_map.mp hp1
      rw [show ((s, e (subGenePool model s)) : Str × List Str).2
          = e (subGenePool model s) from rfl] at hg
      rw [enum_mem he, subGenePool_mem] at hg
      obtain ⟨r, hr, -, hgr⟩ := hg
      exact hwf r hr g hgr
  · intro out hout p hp
    rw [metaboliteOutComp_pairs hout] at hp
    obtain ⟨hp1, hp2⟩ := List.mem_filter.mp hp
    constructor
    · exact List.length_pos.mp (by simpa using hp2)
    · intro g hg
      obtain ⟨m, hm, rfl⟩ := List.mem_map.mp hp1
      rw [show ((stripApos (metKey m), e (compGenePool e model m)) : Str × List Str).2
          = e (compGenePool e model m) from rfl] at hg
      rw [enum_mem he, compGenePool_mem he] at hg
      obtain ⟨r, hr, -, hgr⟩ := hg
      exact hwf r hr g hgr
  · intro out hout p hp
    rw [metaboliteOutMerged_pairs hout] at hp
    obtain ⟨hp1, hp2⟩ := List.mem_filter.mp hp
    constructor
    · exact List.length_pos.mp (by simpa using hp2)
    · intro g hg
      obtain ⟨nm, hnm, rfl⟩ := List.mem_map.mp hp1
      rw [show ((stripApos nm, e (mergedGenePool e model nm)) : Str × List Str).2
          = e (mergedGenePool e model nm) from rfl] at hg
      rw [enum_mem he, mergedGenePool_mem he] at hg
      obtain ⟨m, hm, -, r, hr, -, hgr⟩ := hg
      exact hwf r hr g hgr

theorem C4_witness :
    (∀ r ∈ mGly.reactions, ∀ g ∈ r.genes, g ∈ mGly.genes)
      ∧ ([['G', '1'], ['G', '2'], ['G', '3']] : List Str) ≠ []
      ∧ ∀ g ∈ ([['G', '1'], ['G', '2'], ['G', '3']] : List Str), g ∈ mGly.genes :=
  ⟨by decide,
    (C4_theorem validEnum_listId mGly (by decide)).1
      ([['G', 'l', 'y', 'c', 'o', 'l', 'y', 's', 'i', 's']],
        [[['G', '1'], ['G', '2'], ['G', '3']]]) (by decide)
      (['G', 'l', 'y', 'c', 'o', 'l', 'y', 's', 'i', 's'],
        [['G', '1'], ['G', '2'], ['G', '3']]) (by decide)⟩

/-- C5: for name and gene fields free of the tab and newline characters, the
serializer emits exactly one record per kept group (no header), and each
record is the tab-join of the group name, the literal na placeholder and the
gene ids, terminated by a single newline that occurs nowhere else in the
record; splitting the record body on tabs returns exactly the fields, whose
count is 2 plus the number of genes, with no trailing delimiter field. -/
theorem C5_theorem (ns : List Str) (A : List (List Str)) (hlen : ns.length = A.length)
    (hname : ∀ n ∈ ns, tabC ∉ n ∧ nlC ∉ n)
    (hgene : ∀ gs ∈ A, ∀ g ∈ gs, tabC ∉ g ∧ nlC ∉ g) :
    (mergedList ns A).length = ns.length
      ∧ ∀ line ∈ mergedList ns A, ∃ p ∈ ns.zip A,
          line = intercalateSep tabC (p.1 :: naField :: p.2) ++ [nlC]
            ∧ nlC ∉ intercalateSep tabC (p.1 :: naField :: p.2)
            ∧ splitOnC tabC (intercalateSep tabC (p.1 :: naField :: p.2))
                = p.1 :: naField :: p.2
            ∧ (splitOnC tabC (intercalateSep tabC (p.1 :: naField :: p.2))).length
                = 2 + p.2.length := by
  constructor
  · rw [mergedList_eq_zip hlen]
    simp [List.length_zip, hlen]
  · intro line hline
    rw [mergedList_eq_zip hlen] at hline
    obtain ⟨p, hp, rfl⟩ := List.mem_map.mp hline
    have hp1 := List.of_mem_zip hp
    have htab : ∀ f ∈ p.1 :: naField :: p.2, tabC ∉ f := by
      intro f hf
      rcases List.mem_cons.mp hf with rfl | hf2
      · exact (hname p.1 hp1.1).1
      · rcases List.mem_cons.mp hf2 with rfl | hf3
        · decide
        · exact (hgene p.2 hp1.2 f hf3).1
    have hnl : ∀ f ∈ p.1 :: naField :: p.2, nlC ∉ f := by
      intro f hf
      rcases List.mem_cons.mp hf with rfl | hf2
      · exact (hname p.1 hp1.1).2
      · rcases List.mem_cons.mp hf2 with rfl | hf3
        · decide
        · exact (hgene p.2 hp1.2 f hf3).2
    refine ⟨p, hp, rfl, not_mem_intercalateSep (by decide) hnl, ?_, ?_⟩
    · exact splitOnC_intercalateSep (naField :: p.2) p.1 htab
    · rw [splitOnC_intercalateSep (naField :: p.2) p.1 htab]
      simp [List.length_cons]
      omega

theorem C5_witness :
    (([['G', 'S']] : List Str).length = ([[['G', '1']]] : List (List Str)).length)
      ∧ (mergedList [['G', 'S']] [[['G', '1']]]).length = ([['G', 'S']] : List Str).length :=
  ⟨by decide,
    ( C5_theorem [['G', 'S']] [[['G', '1']]] (by decide) (by decide) (by decide)).1⟩

/-- C6 as stated is false: no emptiness or duplication check exists; a
reaction whose subsystem label is the empty string produces a written group
whose key is the empty string, and its .gmt line starts with the field
delimiter. -/
theorem C6_counterexample :
    subsystemOut listId exM6 = some ([[]], [[['G', '1']]])
      ∧ subsystemFile listId exM6 = some [tabC, 'n', 'a', tabC, 'G', '1', nlC]
      ∧ ([] : Str) ∈ [([] : Str)] := by
  decide

/-- C6 (amended): the pipelines write the (for metabolites,
apostrophe-stripped) group labels of the model verbatim as output keys, with
no emptiness check, no duplicate check and no collision flagging: every
output key is the subsystem label of some reaction, respectively the
apostrophe-stripped key or name of some metabolite, exactly as it appears in
the model. -/
theorem C6_theorem (e : {α : Type} → List α → List α) (model : Model) :
    (∀ out, subsystemOut e model = some out →
      ∀ n ∈ out.1, ∃ r ∈ model.reactions, n = r.subsystem) ∧
    (∀ out, metaboliteOutComp e model = some out →
      ∀ n ∈ out.1, ∃ m ∈ model.metabolites, n = stripApos (metKey m)) ∧
    (∀ out, metaboliteOutMerged e model = some out →
      ∀ n ∈ out.1, ∃ m ∈ model.metabolites, n = stripApos m.name) := by
  refine ⟨?_, ?_, ?_⟩
  · intro out hout n hn
    unfold subsystemOut at hout
    rw [subsystemAssoc_eq] at hout
    simp only [Option.some.injEq] at hout
    rw [← hout] at hn
    rw [filterNames_eq (by simp)] at hn
    obtain ⟨p, hp, rfl⟩ := List.mem_map.mp hn
    have hp2 := (List.of_mem_zip (List.mem_filter.mp hp).1).1
    obtain ⟨r, hr, hrs⟩ := (subsystemNames_spec model p.1).mp hp2
    exact ⟨r, hr, hrs.symm⟩
  · intro out hout n hn
    unfold metaboliteOutComp at hout
    cases hassoc : metaboliteAssocComp e model with
    | none => rw [hassoc] at hout; exact absurd hout (by simp)
    | some assoc =>
        rw [hassoc] at hout
        simp only [Option.some.injEq] at hout
        rw [← hout] at hn
        obtain ⟨x, hx, rfl⟩ := List.mem_map.mp hn
        have hlen : (metNamesComp model).length = assoc.length := by
          have := (metaboliteAssocComp_forall2 hassoc).length_eq
          simpa [metNamesComp] using this
        rw [filterNames_eq hlen] at hx
        obtain ⟨p, hp, rfl⟩ := List.mem_map.mp hx
        have hp2 := (List.of_mem_zip (List.mem_filter.mp hp).1).1
        obtain ⟨m, hm, hmk⟩ := List.mem_map.mp hp2
        exact ⟨m, hm, by rw [hmk]⟩
  · intro out hout n hn
    unfold metaboliteOutMerged at hout
    cases hassoc : metaboliteAssocMerged e model with
    | none => rw [hassoc] at hout; exact absurd hout (by simp)
    | some assoc =>
        rw [hassoc] at hout
        simp only [Option.some.injEq] at hout
        rw [← hout] at hn
        obtain ⟨x, hx, rfl⟩ := List.mem_map.mp hn
        have hlen : (metNamesMerged model).length = assoc.length :=
          (metaboliteAssocMerged_forall2 hassoc).length_eq
        rw [filterNames_eq hlen] at hx
        obtain ⟨p, hp, rfl⟩ := List.mem_map.mp hx
        have hp2 := (List.of_mem_zip (List.mem_filter.mp hp).1).1
        obtain ⟨m, hm, hmn⟩ := (metNamesMerged_spec model p.1).mp hp2
        exact ⟨m, hm, by rw [hmn]⟩

theorem C6_witness :
    subsystemOut listId mGly
        = some ([['G', 'l', 'y', 'c', 'o', 'l', 'y', 's', 'i', 's']],
                [[['G', '1'], ['G', '2'], ['G', '3']]])
      ∧ ∃ r ∈ mGly.reactions,
          ['G', 'l', 'y', 'c', 'o', 'l', 'y', 's', 'i', 's'] = r.subsystem :=
  ⟨by decide,
    (C6_theorem listId mGly).1
      ([['G', 'l', 'y', 'c', 'o', 'l', 'y', 's', 'i', 's']],
        [[['G', '1'], ['G', '2'], ['G', '3']]]) (by decide)
      ['G', 'l', 'y', 'c', 'o', 'l', 'y', 's', 'i', 's'] (by decide)⟩

/-- C7 as stated is false: a metabolite with no associated reactions is not
skipped silently; the union step set.union is then invoked with no set at
all and raises a TypeError, aborting both metabolite pipelines before any
output is produced (modelled by the pipeline returning none). -/
theorem C7_counterexample :
    exM7.metabolites.map (fun m => metReactions exM7 m) = [[]]
      ∧ metaboliteOutComp listId exM7 = none
      ∧ metaboliteOutMerged listId exM7 = none := by
  decide

/-- C7 (amended): in the compartment-aware metabolite pipeline, a metabolite
with at least one associated reaction but no associated genes is skipped
silently by the empty-set filter, while a metabolite with no associated
reactions makes the run fail: if any metabolite has no reactions the
pipeline aborts with an error, and if every metabolite has a reaction the
pipeline succeeds and every written gene set is nonempty. -/
theorem C7_theorem {e : {α : Type} → List α → List α} (he : ValidEnum e)
    (model : Model) :
    ((∃ m ∈ model.metabolites, metReactions model m = []) →
      metaboliteOutComp e model = none) ∧
    ((∀ m ∈ model.metabolites, metReactions model m ≠ []) →
      ∃ out, metaboliteOutComp e model = some out ∧ ∀ gs ∈ out.2, gs ≠ []) := by
  constructor
  · rintro ⟨m, hm, hempty⟩
    have hnone : metaboliteAssocComp e model = none := by
      apply optMapM_eq_none_of hm
      rw [pySetUnionE_eq_none_iff, List.map_eq_nil_iff, enum_eq_nil_iff he]
      exact hempty
    unfold metaboliteOutComp
    rw [hnone]
  · intro hall
    have hsome : ∀ m ∈ model.metabolites,
        pySetUnionE e ((e (metReactions model m)).map (fun r => r.genes)) ≠ none := by
      intro m hm
      rw [Ne, pySetUnionE_eq_none_iff, List.map_eq_nil_iff, enum_eq_nil_iff he]
      exact hall m hm
    obtain ⟨assoc, hassoc⟩ := optMapM_exists_of hsome
    have hassoc2 : metaboliteAssocComp e model = some assoc := hassoc
    refine ⟨((filterNames (metNamesComp model) assoc).map stripApos, filterAssoc assoc),
      ?_, ?_⟩
    · unfold metaboliteOutComp
      rw [hassoc2]
    · intro gs hgs
      have hpos := (List.mem_filter.mp hgs).2
      exact List.length_pos.mp (by simpa using hpos)

theorem C7_witness :
    (∃ m ∈ exM7.metabolites, metReactions exM7 m = [])
      ∧ metaboliteOutComp listId exM7 = none :=
  ⟨by decide, (C7_theorem validEnum_listId exM7).1 (by decide)⟩

/-- C8: under the compartment-merged policy the extraction produces exactly
one association per distinct metabolite name, and its gene set is exactly
the union, over all metabolites sharing that name and over all reactions of
their merged reaction pool, of the reaction gene sets. -/
theorem C8_theorem {e : {α : Type} → List α → List α} (he : ValidEnum e)
    (model : Model) (assoc : List (List Str))
    (h : metaboliteAssocMerged e model = some assoc) :
    (metNamesMerged model).Nodup
      ∧ (∀ nm, nm ∈ metNamesMerged model ↔ ∃ m ∈ model.metabolites, m.name = nm)
      ∧ assoc.length = (metNamesMerged model).length
      ∧ ∀ p ∈ (metNamesMerged model).zip assoc, ∀ g,
          g ∈ p.2 ↔ ∃ m ∈ model.metabolites, m.name = p.1
              ∧ ∃ r ∈ model.reactions, m.id ∈ r.mets ∧ g ∈ r.genes := by
  have h2 := metaboliteAssocMerged_forall2 h
  refine ⟨npUnique_nodup _, metNamesMerged_spec model, h2.length_eq.symm, ?_⟩
  intro p hp g
  have hrel := (List.forall₂_iff_zip.mp h2).2 hp
  rw [hrel, enum_mem he, mergedGenePool_mem he]

theorem C8_witness :
    metaboliteAssocMerged listId exWater = some [[['G', '1'], ['G', '2']]]
      ∧ (['G', '2'] ∈ [['G', '1'], ['G', '2']]
          ↔ ∃ m ∈ exWater.metabolites, m.name = ['w', 'a', 't', 'e', 'r']
              ∧ ∃ r ∈ exWater.reactions, m.id ∈ r.mets ∧ ['G', '2'] ∈ r.genes) :=
  ⟨by decide,
    (C8_theorem validEnum_listId exWater [[['G', '1'], ['G', '2']]] (by decide)).2.2.2
      (['w', 'a', 't', 'e', 'r'], [['G', '1'], ['G', '2']]) (by decide) ['G', '2']⟩

/-- C9 as stated is false: requiring only the group names to be free of tab
and newline characters is not enough, because a gene id containing the field
delimiter is split into two genes when the file is parsed back. -/
theorem C9_counterexample :
    (tabC ∉ (['A'] : Str) ∧ nlC ∉ (['A'] : Str))
      ∧ parseGmt (gmtOf [['A']] [[['g', tabC, 'x']]])
          ≠ ([['A']] : List Str).zip [[['g', tabC, 'x']]] := by
  decide

/-- C9 (amended): for parallel lists of equal length whose group names AND
gene ids are free of the tab and newline characters, serializing to the
.gmt format and parsing back (fields 3 onward of each tab-split line as the
gene set) reproduces the name-to-gene-set association exactly. -/
theorem C9_theorem (ns : List Str) (A : List (List Str)) (hlen : ns.length = A.length)
    (hname : ∀ n ∈ ns, tabC ∉ n ∧ nlC ∉ n)
    (hgene : ∀ gs ∈ A, ∀ g ∈ gs, tabC ∉ g ∧ nlC ∉ g) :
    parseGmt (gmtOf ns A) = ns.zip A :=
  parseGmt_gmtOf hlen hname hgene

theorem C9_witness :
    (([['A'], ['B']] : List Str).length
        = ([[['G', '1']], [['G', '2'], ['G', '3']]] : List (List Str)).length)
      ∧ parseGmt (gmtOf [['A'], ['B']] [[['G', '1']], [['G', '2'], ['G', '3']]])
          = ([['A'], ['B']] : List Str).zip [[['G', '1']], [['G', '2'], ['G', '3']]] :=
  ⟨by decide,
    C9_theorem [['A'], ['B']] [[['G', '1']], [['G', '2'], ['G', '3']]]
      (by decide) (by decide) (by decide)⟩
